import Mathlib

/-!
Shallow embedding of the cryptographic core of imgconceal
(src/src/imc_crypto.c and src/src/imc_crypto.h): password-based context
creation, the buffered PRNG, the Fisher-Yates pointer shuffle, and the
authenticated-encryption framing (encrypt/decrypt).

Bytes are modelled as `Nat` values (with `% 256` where the source produces
bytes), machine integers as `Nat` with explicit `% 2 ^ 32` where the source
truncates, and statuses as `Int` (negative = failure, as in the C code).

External library calls (libsodium's crypto_secretstream_xchacha20poly1305
family, crypto_pwhash, and the SHISHUA generator) are not part of this
repository; they are modelled from the spec as concrete executable
functions, documented at each definition.
-/

namespace ImcCrypto

/-- Fixed buffer capacity of the PRNG byte buffer.
Modelled from the spec: `IMC_PRNG_BUFFER` is defined in a header that is not
part of the visible sources; the spec only requires a fixed positive
capacity, so a concrete value is chosen. -/
def IMC_PRNG_BUFFER : Nat := 64

/-- `crypto_secretstream_xchacha20poly1305_HEADERBYTES` (libsodium): 24. -/
def SS_HEADERBYTES : Nat := 24

/-- `crypto_secretstream_xchacha20poly1305_ABYTES` (libsodium): 17
(1 encrypted tag byte + 16 MAC bytes). -/
def SS_ABYTES : Nat := 17

/-- `crypto_secretstream_xchacha20poly1305_KEYBYTES` (libsodium): 32. -/
def SS_KEYBYTES : Nat := 32

/-- `crypto_secretstream_xchacha20poly1305_TAG_FINAL` (libsodium): 3. -/
def TAG_FINAL : Nat := 3

/-- `IMC_HEADER_OVERHEAD` from imc_crypto.h: the 4-byte magic, the 4-byte
version and the 4-byte length field prepended by imgconceal. -/
def IMC_HEADER_OVERHEAD : Nat := 12

/-- `IMC_CRYPTO_MAGIC` from imc_crypto.h: the ASCII bytes of the signature. -/
def IMC_CRYPTO_MAGIC : List Nat := [105, 109, 99, 108]

/-- Version constant written at offset 4 of the frame.
Modelled from the spec: `IMC_CRYPTO_VERSION` is defined in a header that is
not part of the visible sources; only its little-endian encoding matters. -/
def IMC_CRYPTO_VERSION : Nat := 1

/-- Error status for allocation / hashing failure.
Modelled from the spec: `IMC_ERR_NO_MEMORY` is a negative status constant
defined outside the visible sources. -/
def IMC_ERR_NO_MEMORY : Int := -2

/-- One generated pseudo-random block plus the successor generator state.
Modelled from the spec: the SHISHUA generator (`prng_gen`) is an external
deterministic byte generator; any concrete deterministic function with the
same signature is a faithful model. -/
def prng_gen (s : Nat) (n : Nat) : List Nat × Nat :=
  ((List.range n).map (fun i => (s * 2654435761 + i * 40503 + 12345) % 256), s + 1)

/-- The PRNG byte buffer with its read cursor (`prng_buffer` field of
`CryptoContext` in the C sources). -/
structure PrngBuffer where
  buf : List Nat
  pos : Nat
  deriving Repr, DecidableEq

/-- The `CryptoContext` of imc_crypto.c: the symmetric key, the generator
state, and the buffered pseudo-random bytes. -/
structure CryptoContext where
  xcc20_key : List Nat
  shishua_state : Nat
  prng_buffer : PrngBuffer
  deriving Repr, DecidableEq

/-- One byte read of `imc_crypto_prng` (the loop body at
imc_crypto.c:72-83): yield `buf[pos]`, advance `pos`, and refill the buffer
(resetting `pos` to 0) as soon as `pos` reaches `IMC_PRNG_BUFFER`. -/
def prngStep (st : CryptoContext) : Nat × CryptoContext :=
  let b := st.prng_buffer.buf.getD st.prng_buffer.pos 0
  let pos1 := st.prng_buffer.pos + 1
  if pos1 = IMC_PRNG_BUFFER then
    let gen := prng_gen st.shishua_state IMC_PRNG_BUFFER
    (b, { st with shishua_state := gen.2, prng_buffer := ⟨gen.1, 0⟩ })
  else
    (b, { st with prng_buffer := ⟨st.prng_buffer.buf, pos1⟩ })

/-- `imc_crypto_prng` (imc_crypto.c:70-84): write `num_bytes` pseudo-random
bytes, returned together with the mutated context. -/
def imc_crypto_prng : CryptoContext → Nat → List Nat × CryptoContext
  | st, 0 => ([], st)
  | st, n + 1 =>
    let s1 := prngStep st
    let rest := imc_crypto_prng s1.2 n
    (s1.1 :: rest.1, rest.2)

/-- Little-endian reassembly of a byte list into a natural number
(`le64toh` / `le32toh` on the byte level). -/
def leNat (bytes : List Nat) : Nat :=
  bytes.foldr (fun b acc => b + 256 * acc) 0

/-- `imc_crypto_prng_uint64` (imc_crypto.c:87-94): read 8 bytes from the
stream and reassemble them as a little-endian 64-bit integer. -/
def imc_crypto_prng_uint64 (st : CryptoContext) : Nat × CryptoContext :=
  let r := imc_crypto_prng st 8
  (leNat r.1, r.2)

/-- The XOR three-assignment exchange of the source (imc_crypto.c:111-113):
`array[i] ^= array[j]; array[j] ^= array[i]; array[i] ^= array[j]`. -/
def xorSwap (a : List Nat) (i j : Nat) : List Nat :=
  let a1 := a.set i ((a.getD i 0) ^^^ (a.getD j 0))
  let a2 := a1.set j ((a1.getD j 0) ^^^ (a1.getD i 0))
  a2.set i ((a2.getD i 0) ^^^ (a2.getD j 0))

/-- The ordinary temporary-variable value exchange of `items[i]` and
`items[j]` that the spec asks for. -/
def valueSwap (a : List Nat) (i j : Nat) : List Nat :=
  (a.set i (a.getD j 0)).set j (a.getD i 0)

/-- One iteration of the Fisher-Yates loop body (imc_crypto.c:104-113) at
loop index `i`: draw `new_i = prng_uint64 % i`, skip when `new_i == i`,
otherwise exchange `array[i]` and `array[new_i]` by the XOR three-assignment
swap of the source. The `print_status` side effect of the C code is pure
output and is not modelled. -/
def shuffleStep (st : CryptoContext) (a : List Nat) (i : Nat) :
    CryptoContext × List Nat :=
  let d := imc_crypto_prng_uint64 st
  let new_i := d.1 % i
  if new_i = i then (d.2, a) else (d.2, xorSwap a i new_i)

/-- The Fisher-Yates loop `for (i = n-1; i > 0; i--)`: `shuffleLoop st a i`
runs the body for indices `i, i-1, ..., 1`. -/
def shuffleLoop : CryptoContext → List Nat → Nat → CryptoContext × List Nat
  | st, a, 0 => (st, a)
  | st, a, i + 1 =>
    let r := shuffleStep st a (i + 1)
    shuffleLoop r.1 r.2 i

/-- `imc_crypto_shuffle_ptr` (imc_crypto.c:97-129): in-place Fisher-Yates
shuffle of an array of pointer-sized values; arrays of at most one element
are returned unchanged. -/
def imc_crypto_shuffle_ptr (st : CryptoContext) (a : List Nat) :
    CryptoContext × List Nat :=
  if a.length ≤ 1 then (st, a) else shuffleLoop st a (a.length - 1)

/-- Reference Fisher-Yates step following the spec's words: same index draw
and the same `j != i` guard, but an ordinary temporary-variable value swap
of `items[i]` and `items[j]`. -/
def shuffleStepSpec (st : CryptoContext) (a : List Nat) (i : Nat) :
    CryptoContext × List Nat :=
  let d := imc_crypto_prng_uint64 st
  let new_i := d.1 % i
  if new_i = i then (d.2, a) else (d.2, valueSwap a i new_i)

/-- Reference Fisher-Yates loop built from `shuffleStepSpec`. -/
def shuffleLoopSpec : CryptoContext → List Nat → Nat → CryptoContext × List Nat
  | st, a, 0 => (st, a)
  | st, a, i + 1 =>
    let r := shuffleStepSpec st a (i + 1)
    shuffleLoopSpec r.1 r.2 i

/-- Reference shuffle following the spec's words (value swap instead of the
XOR swap). -/
def shuffleSpec (st : CryptoContext) (a : List Nat) :
    CryptoContext × List Nat :=
  if a.length ≤ 1 then (st, a) else shuffleLoopSpec st a (a.length - 1)

/-- Fisher-Yates step with the `new_i == i` skip branch removed: the XOR
swap of the source is performed unconditionally. Used to show that the skip
branch of the source is unreachable. -/
def shuffleStepNoSkip (st : CryptoContext) (a : List Nat) (i : Nat) :
    CryptoContext × List Nat :=
  let d := imc_crypto_prng_uint64 st
  (d.2, xorSwap a i (d.1 % i))

/-- Fisher-Yates loop built from `shuffleStepNoSkip`. -/
def shuffleLoopNoSkip : CryptoContext → List Nat → Nat → CryptoContext × List Nat
  | st, a, 0 => (st, a)
  | st, a, i + 1 =>
    let r := shuffleStepNoSkip st a (i + 1)
    shuffleLoopNoSkip r.1 r.2 i

/-- Keyed digest of a byte list, used by the stream-cipher model for the
keystream and the MAC. Modelled from the spec: any concrete deterministic
mixing function is a faithful stand-in for the external primitives. -/
def ssDigest (l : List Nat) : Nat :=
  l.foldl (fun h x => (h * 131 + x + 11) % 4294967296) 7

/-- Keystream byte `i` for a key/header pair.
Modelled from the spec: the AEAD stream cipher of libsodium
(`crypto_secretstream_xchacha20poly1305`) is external to the repository;
it is modelled as an additive stream cipher with a keyed MAC. -/
def ssKeystream (key hdr : List Nat) (i : Nat) : Nat :=
  (ssDigest (key ++ hdr) * 191 + i * 197 + 57) % 256

/-- Model encryption of one byte at stream position `i`. -/
def ssEncByte (key hdr : List Nat) (i m : Nat) : Nat :=
  (m + ssKeystream key hdr i) % 256

/-- Model decryption of one byte at stream position `i`. -/
def ssDecByte (key hdr : List Nat) (i c : Nat) : Nat :=
  (c + 256 - ssKeystream key hdr i) % 256

/-- Model encryption of a byte list starting at stream position `i`. -/
def ssEncList (key hdr : List Nat) : Nat → List Nat → List Nat
  | _, [] => []
  | i, m :: ms => ssEncByte key hdr i m :: ssEncList key hdr (i + 1) ms

/-- Model decryption of a byte list starting at stream position `i`. -/
def ssDecList (key hdr : List Nat) : Nat → List Nat → List Nat
  | _, [] => []
  | i, c :: cs => ssDecByte key hdr i c :: ssDecList key hdr (i + 1) cs

/-- 16-byte model MAC over the encrypted body.
Modelled from the spec: the Poly1305 authenticator of the AEAD stream is
external; any keyed deterministic function of (key, header, body) is a
faithful model of tag computation and verification. -/
def ssMac (key hdr body : List Nat) : List Nat :=
  (List.range 16).map
    (fun j => (ssDigest (key ++ hdr ++ body) / 256 ^ (j % 4) + j * 89) % 256)

/-- Model of `crypto_secretstream_xchacha20poly1305_push` for one chunk:
the tag byte is encrypted at stream position 0, the message at positions
1..m, and the 16-byte MAC over the encrypted body is appended
(`SS_ABYTES = 17` added bytes in total). Modelled from the spec. -/
def ss_push (key hdr : List Nat) (tag : Nat) (msg : List Nat) : List Nat :=
  let body := ssEncByte key hdr 0 tag :: ssEncList key hdr 1 msg
  body ++ ssMac key hdr body

/-- Model of `crypto_secretstream_xchacha20poly1305_pull` for one chunk:
fails (`none`) on short input or MAC mismatch; otherwise recovers the tag
byte and the message, writing nothing on failure. Modelled from the spec. -/
def ss_pull (key hdr : List Nat) (data : List Nat) : Option (Nat × List Nat) :=
  if data.length < SS_ABYTES then none
  else
    let body := data.take (data.length - 16)
    let mac := data.drop (data.length - 16)
    if mac = ssMac key hdr body then
      match body with
      | [] => none
      | c0 :: rest => some (ssDecByte key hdr 0 c0, ssDecList key hdr 1 rest)
    else none

/-- Model of the fresh cipher header produced by
`crypto_secretstream_xchacha20poly1305_init_push`. Modelled from the spec:
the header is public per-session data of fixed size `SS_HEADERBYTES`; the
model derives it deterministically from the key. -/
def ssHeader (key : List Nat) : List Nat :=
  (List.range SS_HEADERBYTES).map (fun i => (ssDigest key + i * 151) % 256)

/-- Little-endian 4-byte encoding of a 32-bit value (`htole32` applied to a
`uint32_t` cast, which truncates mod `2 ^ 32`). -/
def le32 (n : Nat) : List Nat :=
  [n % 256, n / 256 % 256, n / 65536 % 256, n / 16777216 % 256]

/-- `imc_crypto_encrypt` (imc_crypto.c:132-189): encrypt the data as one
FINAL-tagged chunk and prepend the imgconceal frame metadata. Returns the
status, the number of bytes written (`*output_len` at return), and the
produced frame. The status is always 0 because the modelled library calls
cannot fail. -/
def imc_crypto_encrypt (st : CryptoContext) (data : List Nat) :
    Int × Nat × List Nat :=
  let hdr := ssHeader st.xcc20_key
  let cipher := ss_push st.xcc20_key hdr TAG_FINAL data
  let clen := cipher.length + SS_HEADERBYTES
  let frame := IMC_CRYPTO_MAGIC ++ le32 IMC_CRYPTO_VERSION ++ le32 clen
      ++ hdr ++ cipher
  (0, clen + IMC_HEADER_OVERHEAD, frame)

/-- Result of `imc_crypto_decrypt`: the returned status, the value of
`*output_len` at return (0 when the pull fails, since the C code leaves it
unwritten on that path), and the contents of the caller's output buffer at
return. -/
structure DecryptResult where
  status : Int
  outLen : Nat
  out : List Nat
  deriving Repr, DecidableEq

/-- `imc_crypto_decrypt` (imc_crypto.c:192-245): pull the single chunk;
on pull failure return the negative status with the caller's buffer
untouched (the modelled pull writes nothing before authentication); on a
successful pull the recovered plaintext is written into the buffer, and if
the recovered tag differs from `TAG_FINAL` the written bytes are zeroed
(`sodium_memzero(output, *output_len)`) and -1 is returned. `outInit` is
the prior content of the caller's output buffer. -/
def imc_crypto_decrypt (st : CryptoContext) (hdr data outInit : List Nat) :
    DecryptResult :=
  match ss_pull st.xcc20_key hdr data with
  | none => ⟨-1, 0, outInit⟩
  | some r =>
    if r.1 = TAG_FINAL then
      ⟨0, r.2.length, r.2 ++ outInit.drop r.2.length⟩
    else
      ⟨-1, r.2.length, List.replicate r.2.length 0 ++ outInit.drop r.2.length⟩

/-- Result of `imc_crypto_context_create`: the status, the contents of the
`prng_seed` stack buffer (four 64-bit words) at return, the contents of the
`output` password-hash stack buffer (64 bytes) at return, and the created
context if any. -/
structure CreateResult where
  status : Int
  prng_seed_final : List Nat
  output_final : List Nat
  context : Option CryptoContext
  deriving Repr, DecidableEq

/-- Model of SHISHUA's `prng_init` from four seed words. Modelled from the
spec: the seed determines the generator state. -/
def prng_init (seed : List Nat) : Nat :=
  seed.foldl (fun h w => (h * 131 + w + 3) % 18446744073709551616) 5

/-- `imc_crypto_context_create` (imc_crypto.c:6-66). The external
`crypto_pwhash` call is modelled by its outcome `pwhash` (`none` = failure,
`some out` = the 64 derived bytes); `seedInit` and `outputInit` model the
indeterminate initial contents of the two locked stack buffers. On the
failure path the C code returns at line 42 without `sodium_munlock`, so the
buffers keep their contents; on success both buffers are wiped by
`sodium_munlock` before return. -/
def imc_crypto_context_create (pwhash : Option (List Nat))
    (seedInit outputInit : List Nat) : CreateResult :=
  match pwhash with
  | none => ⟨IMC_ERR_NO_MEMORY, seedInit, outputInit, none⟩
  | some out =>
    let key := out.take SS_KEYBYTES
    let seed := (List.range 4).map
      (fun j => leNat ((out.drop (SS_KEYBYTES + 8 * j)).take 8))
    let s0 := prng_init seed
    let gen := prng_gen s0 IMC_PRNG_BUFFER
    ⟨0, List.replicate 4 0, List.replicate 64 0,
      some ⟨key, gen.2, ⟨gen.1, 0⟩⟩⟩

/-! ### General list helpers -/

theorem getD_set_self {l : List Nat} {i : Nat} (h : i < l.length) (v : Nat) :
    (l.set i v).getD i 0 = v := by
  simp [List.getD_eq_getElem?_getD, List.getElem?_set_eq_of_lt _ h]

theorem getD_set_ne {l : List Nat} {i j : Nat} (h : i ≠ j) (v : Nat) :
    (l.set i v).getD j 0 = l.getD j 0 := by
  simp [List.getD_eq_getElem?_getD, List.getElem?_set_ne h]

theorem set_getD_self {l : List Nat} {i : Nat} (h : i < l.length) :
    l.set i (l.getD i 0) = l := by
  apply List.ext_getElem?
  intro n
  by_cases hn : i = n
  · subst hn
    simp [List.getD_eq_getElem?_getD, List.getElem?_eq_getElem h,
      List.getElem?_set_eq_of_lt _ h]
  · simp [List.getElem?_set_ne hn]

theorem cons_set_perm :
    ∀ (l : List Nat) (m v : Nat), m < l.length →
      (l.getD m 0 :: l.set m v).Perm (v :: l)
  | [], m, v, h => absurd h (by simp)
  | b :: t, 0, v, _ => by
    simpa using List.Perm.swap v b t
  | b :: t, m + 1, v, h => by
    have hm : m < t.length := by simpa using h
    have ih := cons_set_perm t m v hm
    have s1 : (t.getD m 0 :: b :: t.set m v).Perm (b :: t.getD m 0 :: t.set m v) :=
      List.Perm.swap b (t.getD m 0) (t.set m v)
    have s2 : (b :: t.getD m 0 :: t.set m v).Perm (b :: v :: t) := ih.cons b
    have s3 : (b :: v :: t).Perm (v :: b :: t) := List.Perm.swap v b t
    exact s1.trans (s2.trans s3)

theorem set_set_perm (l : List Nat) (i j : Nat) (hi : i < l.length)
    (hj : j < l.length) :
    ((l.set i (l.getD j 0)).set j (l.getD i 0)).Perm l := by
  by_cases hij : i = j
  · subst hij
    rw [List.set_set, set_getD_self hi]
  · have h1 : (l.set i (l.getD j 0)).getD j 0 = l.getD j 0 := getD_set_ne hij _
    have hj1 : j < (l.set i (l.getD j 0)).length := by simpa using hj
    have p1 := cons_set_perm (l.set i (l.getD j 0)) j (l.getD i 0) hj1
    rw [h1] at p1
    have p2 := cons_set_perm l i (l.getD j 0) hi
    exact (p1.trans p2).cons_inv

/-! ### Concrete context used to instantiate theorems with hypotheses -/

/-- A concrete well-formed context (as produced by `imc_crypto_context_create`:
full freshly generated buffer, cursor at 0), used to evaluate theorems on
concrete inputs. -/
def ctxW : CryptoContext :=
  ⟨List.replicate 32 7, 43, ⟨(prng_gen 42 IMC_PRNG_BUFFER).1, 0⟩⟩

/-! ### Claim C7: PRNG stream continuity -/

/-- C7: the PRNG output is one continuous byte sequence independent of the
internal buffer boundaries: reading `n` bytes and then `m` bytes from
`imc_crypto_prng` yields, concatenated, exactly the bytes of a single
`n + m`-byte read from the same initial context, and leaves the context in
the same final state. -/
theorem prng_stream_continuity (st : CryptoContext) (n m : Nat) :
    (imc_crypto_prng st n).1 ++ (imc_crypto_prng (imc_crypto_prng st n).2 m).1 =
      (imc_crypto_prng st (n + m)).1 ∧
    (imc_crypto_prng (imc_crypto_prng st n).2 m).2 =
      (imc_crypto_prng st (n + m)).2 := by
  induction n generalizing st with
  | zero => simp [imc_crypto_prng]
  | succ k ih =>
    have h : k + 1 + m = (k + m) + 1 := by omega
    rw [h]
    simp only [imc_crypto_prng, List.cons_append]
    exact ⟨congrArg _ (ih (prngStep st).2).1, (ih (prngStep st).2).2⟩

/-! ### Claim C5: wiping of intermediate secret buffers in context_create -/

/-- C5 (evaluation at the failing input): when the password-hash computation
fails, `imc_crypto_context_create` returns the error status at imc_crypto.c:42
without `sodium_munlock`-wiping either locked stack buffer: both the
`prng_seed` words and the hash `output` buffer keep their prior contents
instead of being zeroed, contradicting the claimed wipe-on-every-exit-path. -/
theorem context_create_error_path_skips_wipe :
    (imc_crypto_context_create none [1, 1, 1, 1] (List.replicate 64 2)).status < 0 ∧
    (imc_crypto_context_create none [1, 1, 1, 1] (List.replicate 64 2)).prng_seed_final ≠
      List.replicate 4 0 ∧
    (imc_crypto_context_create none [1, 1, 1, 1] (List.replicate 64 2)).output_final ≠
      List.replicate 64 0 := by decide

/-! ### Claim C2: output buffer on decrypt failure -/

/-- C2 (counterexample): a decrypt failure (here: input too short to carry a
MAC, so the authenticated pull fails) returns a negative status while the
caller's output buffer keeps its prior non-zero content — the buffer is not
all-zero on this failure return, because the early return at imc_crypto.c:228
performs no zeroing. -/
theorem decrypt_pull_fail_output_not_zeroed :
    (imc_crypto_decrypt ctxW (List.replicate 24 0) [] [5]).status < 0 ∧
    (imc_crypto_decrypt ctxW (List.replicate 24 0) [] [5]).out ≠
      List.replicate
        (imc_crypto_decrypt ctxW (List.replicate 24 0) [] [5]).out.length 0 := by
  decide

/-- C2 (amended): on any decrypt failure the caller's output buffer is
either returned untouched (pull failure: the underlying pull writes no
plaintext before authentication succeeds) or has its first `outLen` written
bytes zeroed (FINAL-tag mismatch); in neither case does the call leave
recovered plaintext in the buffer. -/
theorem decrypt_fail_no_plaintext (st : CryptoContext)
    (hdr data outInit : List Nat)
    (h : (imc_crypto_decrypt st hdr data outInit).status < 0) :
    (imc_crypto_decrypt st hdr data outInit).out = outInit ∨
    (imc_crypto_decrypt st hdr data outInit).out =
      List.replicate (imc_crypto_decrypt st hdr data outInit).outLen 0 ++
        outInit.drop (imc_crypto_decrypt st hdr data outInit).outLen := by
  cases hp : ss_pull st.xcc20_key hdr data with
  | none => simp [imc_crypto_decrypt, hp]
  | some r =>
    by_cases ht : r.1 = TAG_FINAL
    · simp [imc_crypto_decrypt, hp, ht] at h
    · simp [imc_crypto_decrypt, hp, ht]

/-- Witness for `decrypt_fail_no_plaintext` at a concrete failing input. -/
theorem decrypt_fail_no_plaintext_witness :
    (imc_crypto_decrypt ctxW (List.replicate 24 0) [] [5]).out = [5] ∨
    (imc_crypto_decrypt ctxW (List.replicate 24 0) [] [5]).out =
      List.replicate (imc_crypto_decrypt ctxW (List.replicate 24 0) [] [5]).outLen 0 ++
        ([5] : List Nat).drop
          (imc_crypto_decrypt ctxW (List.replicate 24 0) [] [5]).outLen :=
  decrypt_fail_no_plaintext ctxW (List.replicate 24 0) [] [5] (by decide)

/-! ### Claim C6: success iff authenticated pull succeeds with tag FINAL -/

/-- Header value used to instantiate decrypt theorems on concrete inputs. -/
def hdrW : List Nat := List.replicate SS_HEADERBYTES 0

/-- A chunk authenticated under `ctxW`'s key and `hdrW` but carrying a
non-FINAL tag byte (tag 0), to exercise the tag check of decrypt. -/
def dataNonFinal : List Nat := ss_push (List.replicate 32 7) hdrW 0 [5]

/-- C6: `imc_crypto_decrypt` returns success exactly when the underlying
authenticated pull succeeds and the recovered tag equals `TAG_FINAL`; when
the pull succeeds with a different tag, the function returns -1 with the
written part of the output buffer zeroed. -/
theorem decrypt_final_tag_iff (st : CryptoContext) (hdr data outInit : List Nat) :
    ((imc_crypto_decrypt st hdr data outInit).status = 0 ↔
      (∃ m, ss_pull st.xcc20_key hdr data = some (TAG_FINAL, m))) ∧
    (∀ t m, ss_pull st.xcc20_key hdr data = some (t, m) → t ≠ TAG_FINAL →
      imc_crypto_decrypt st hdr data outInit =
        ⟨-1, m.length, List.replicate m.length 0 ++ outInit.drop m.length⟩) := by
  constructor
  · cases hp : ss_pull st.xcc20_key hdr data with
    | none => simp [imc_crypto_decrypt, hp]
    | some r =>
      by_cases ht : r.1 = TAG_FINAL
      · simp only [imc_crypto_decrypt, hp, ht, if_pos rfl]
        constructor
        · intro _
          exact ⟨r.2, by rw [← ht]⟩
        · intro _; rfl
      · simp [imc_crypto_decrypt, hp, ht]
        intro m hm
        exact absurd (by rw [hm] : r.1 = TAG_FINAL) ht
  · intro t m hp ht
    simp [imc_crypto_decrypt, hp, ht]

set_option maxRecDepth 4000 in
/-- Witness for `decrypt_final_tag_iff` at a concrete input whose pull
succeeds with a non-FINAL tag. -/
theorem decrypt_final_tag_iff_witness :
    imc_crypto_decrypt ctxW hdrW dataNonFinal [9, 9] = ⟨-1, 1, [0, 9]⟩ := by
  have h := (decrypt_final_tag_iff ctxW hdrW dataNonFinal [9, 9]).2 0 [5]
    (by decide) (by decide)
  simpa using h

/-! ### Shuffle lemmas -/

theorem xor_cancel_left (x y : Nat) : y ^^^ (x ^^^ y) = x := by
  rw [Nat.xor_comm x y, ← Nat.xor_assoc, Nat.xor_self, Nat.zero_xor]

theorem xor_cancel_right (x y : Nat) : (x ^^^ y) ^^^ x = y := by
  rw [Nat.xor_comm x y, Nat.xor_assoc, Nat.xor_self, Nat.xor_zero]

theorem xorSwap_eq_valueSwap (a : List Nat) (i j : Nat) (hi : i < a.length)
    (hj : j < a.length) (hne : j ≠ i) : xorSwap a i j = valueSwap a i j := by
  have hij : i ≠ j := hne.symm
  have hj1 : j < (a.set i ((a.getD i 0) ^^^ (a.getD j 0))).length := by simpa using hj
  simp only [xorSwap, valueSwap]
  rw [getD_set_ne hij, getD_set_self hi, xor_cancel_left,
    getD_set_ne hne, getD_set_self hi, getD_set_self hj1, xor_cancel_right,
    List.set_comm _ _ _ hij, List.set_set, List.set_comm _ _ _ hne]

theorem shuffleStep_eq_spec (st : CryptoContext) (a : List Nat) (i : Nat)
    (h1 : 1 ≤ i) (h2 : i < a.length) :
    shuffleStep st a i = shuffleStepSpec st a i := by
  have hlt : (imc_crypto_prng_uint64 st).1 % i < i := Nat.mod_lt _ h1
  have hne : (imc_crypto_prng_uint64 st).1 % i ≠ i := Nat.ne_of_lt hlt
  simp only [shuffleStep, shuffleStepSpec, if_neg hne]
  rw [xorSwap_eq_valueSwap a i ((imc_crypto_prng_uint64 st).1 % i) h2
    (lt_trans hlt h2) hne]

theorem shuffleStep_eq_noskip (st : CryptoContext) (a : List Nat) (i : Nat)
    (h1 : 1 ≤ i) : shuffleStep st a i = shuffleStepNoSkip st a i := by
  have hne : (imc_crypto_prng_uint64 st).1 % i ≠ i :=
    Nat.ne_of_lt (Nat.mod_lt _ h1)
  simp only [shuffleStep, shuffleStepNoSkip, if_neg hne]

theorem valueSwap_length (a : List Nat) (i j : Nat) :
    (valueSwap a i j).length = a.length := by
  simp [valueSwap]

theorem shuffleStepSpec_length (st : CryptoContext) (a : List Nat) (i : Nat) :
    (shuffleStepSpec st a i).2.length = a.length := by
  by_cases hne : (imc_crypto_prng_uint64 st).1 % i = i
  · simp [shuffleStepSpec, hne]
  · simp [shuffleStepSpec, hne, valueSwap_length]

theorem shuffleLoop_eq_spec :
    ∀ (i : Nat) (st : CryptoContext) (a : List Nat), i < a.length →
      shuffleLoop st a i = shuffleLoopSpec st a i
  | 0, _, _, _ => rfl
  | i + 1, st, a, h => by
    have hs := shuffleStep_eq_spec st a (i + 1) (by omega) h
    have hlen : (shuffleStepSpec st a (i + 1)).2.length = a.length :=
      shuffleStepSpec_length st a (i + 1)
    simp only [shuffleLoop, shuffleLoopSpec, hs]
    exact shuffleLoop_eq_spec i (shuffleStepSpec st a (i + 1)).1
      (shuffleStepSpec st a (i + 1)).2 (by omega)

theorem shuffleLoop_eq_noskip :
    ∀ (i : Nat) (st : CryptoContext) (a : List Nat),
      shuffleLoop st a i = shuffleLoopNoSkip st a i
  | 0, _, _ => rfl
  | i + 1, st, a => by
    simp only [shuffleLoop, shuffleLoopNoSkip, shuffleStep_eq_noskip st a (i + 1) (by omega)]
    exact shuffleLoop_eq_noskip i _ _

theorem shuffle_eq_spec_aux (st : CryptoContext) (a : List Nat) :
    imc_crypto_shuffle_ptr st a = shuffleSpec st a := by
  unfold imc_crypto_shuffle_ptr shuffleSpec
  by_cases h : a.length ≤ 1
  · simp [h]
  · simp only [if_neg h]
    exact shuffleLoop_eq_spec (a.length - 1) st a (by omega)

theorem shuffleStepSpec_perm (st : CryptoContext) (a : List Nat) (i : Nat)
    (h1 : 1 ≤ i) (h2 : i < a.length) :
    ((shuffleStepSpec st a i).2).Perm a := by
  by_cases hne : (imc_crypto_prng_uint64 st).1 % i = i
  · simp [shuffleStepSpec, hne]
  · simp only [shuffleStepSpec, if_neg hne]
    exact set_set_perm a i _ h2 (lt_trans (Nat.mod_lt _ h1) h2)

theorem shuffleLoopSpec_perm :
    ∀ (i : Nat) (st : CryptoContext) (a : List Nat), i < a.length →
      ((shuffleLoopSpec st a i).2).Perm a
  | 0, _, _, _ => List.Perm.refl _
  | i + 1, st, a, h => by
    have hp := shuffleStepSpec_perm st a (i + 1) (by omega) h
    have hlen : (shuffleStepSpec st a (i + 1)).2.length = a.length :=
      hp.length_eq
    simp only [shuffleLoopSpec]
    exact (shuffleLoopSpec_perm i (shuffleStepSpec st a (i + 1)).1
      (shuffleStepSpec st a (i + 1)).2 (by omega)).trans hp

/-! ### Claim C8: the XOR-swap shuffle equals the reference value-swap shuffle -/

/-- C8: `imc_crypto_shuffle_ptr` is extensionally equal to the reference
Fisher-Yates procedure stated by the spec (index `i` from `n-1` down to 1,
`j = next_uint64 mod i`, ordinary value swap when `j != i`); moreover the
XOR three-assignment swap agrees with the value swap on any two distinct
in-bounds positions. -/
theorem shuffle_matches_reference (st : CryptoContext) (a : List Nat) :
    imc_crypto_shuffle_ptr st a = shuffleSpec st a ∧
    (∀ i j, i < a.length → j < a.length → j ≠ i →
      xorSwap a i j = valueSwap a i j) :=
  ⟨shuffle_eq_spec_aux st a, fun i j hi hj hne => xorSwap_eq_valueSwap a i j hi hj hne⟩

/-- Witness for `shuffle_matches_reference` at a concrete array and a
concrete pair of distinct indices. -/
theorem shuffle_matches_reference_witness :
    imc_crypto_shuffle_ptr ctxW [30, 40] = shuffleSpec ctxW [30, 40] ∧
    xorSwap [30, 40] 1 0 = valueSwap [30, 40] 1 0 :=
  ⟨(shuffle_matches_reference ctxW [30, 40]).1,
    (shuffle_matches_reference ctxW [30, 40]).2 1 0 (by decide) (by decide) (by decide)⟩

/-! ### Claim C10: loop indices stay positive and the skip branch is dead -/

/-- C10: in the Fisher-Yates loop every visited index `i` is at least 1
(the modulo reduction never divides by zero), the drawn index
`new_i = prng_uint64 mod i` is strictly smaller than `i`, so the
`new_i == i` skip branch never fires: the whole shuffle equals the variant
whose skip branch has been deleted, and every iteration swaps element `i`
with a strictly earlier element. -/
theorem shuffle_skip_branch_unreachable (st : CryptoContext) (a : List Nat)
    (i : Nat) (h : 1 ≤ i) :
    (imc_crypto_prng_uint64 st).1 % i < i ∧
    shuffleStep st a i = shuffleStepNoSkip st a i ∧
    imc_crypto_shuffle_ptr st a = shuffleLoopNoSkip st a (a.length - 1) := by
  refine ⟨Nat.mod_lt _ h, shuffleStep_eq_noskip st a i h, ?_⟩
  unfold imc_crypto_shuffle_ptr
  by_cases hlen : a.length ≤ 1
  · have : a.length - 1 = 0 := by omega
    simp [hlen, this, shuffleLoopNoSkip]
  · simp only [if_neg hlen]
    exact shuffleLoop_eq_noskip (a.length - 1) st a

/-- Witness for `shuffle_skip_branch_unreachable` at a concrete context,
array and index. -/
theorem shuffle_skip_branch_unreachable_witness :
    (imc_crypto_prng_uint64 ctxW).1 % 1 < 1 ∧
    shuffleStep ctxW [30, 40] 1 = shuffleStepNoSkip ctxW [30, 40] 1 ∧
    imc_crypto_shuffle_ptr ctxW [30, 40] = shuffleLoopNoSkip ctxW [30, 40] 1 := by
  have h := shuffle_skip_branch_unreachable ctxW [30, 40] 1 (by decide)
  simpa using h

/-! ### Claim C4: the shuffle is a permutation -/

/-- C4: `imc_crypto_shuffle_ptr` permutes the array in place: the result is
a rearrangement of the input (same multiset of elements, hence a bijection
of the original indices), the length is unchanged, and arrays of at most one
element are returned completely unchanged. -/
theorem shuffle_permutes (st : CryptoContext) (a : List Nat) :
    ((imc_crypto_shuffle_ptr st a).2).Perm a ∧
    (imc_crypto_shuffle_ptr st a).2.length = a.length ∧
    (a.length ≤ 1 → (imc_crypto_shuffle_ptr st a).2 = a) := by
  have hperm : ((imc_crypto_shuffle_ptr st a).2).Perm a := by
    rw [shuffle_eq_spec_aux]
    unfold shuffleSpec
    by_cases h : a.length ≤ 1
    · simp [h]
    · simp only [if_neg h]
      exact shuffleLoopSpec_perm (a.length - 1) st a (by omega)
  refine ⟨hperm, hperm.length_eq, ?_⟩
  intro h
  unfold imc_crypto_shuffle_ptr
  simp [h]

/-- Witness for `shuffle_permutes`: a singleton array is returned unchanged. -/
theorem shuffle_permutes_witness :
    (imc_crypto_shuffle_ptr ctxW [900]).2 = [900] :=
  (shuffle_permutes ctxW [900]).2.2 (by decide)

/-! ### Frame layout lemmas -/

theorem ssEncList_length (key hdr : List Nat) :
    ∀ (i : Nat) (ms : List Nat), (ssEncList key hdr i ms).length = ms.length
  | _, [] => rfl
  | i, _ :: ms => by
    simp [ssEncList, ssEncList_length key hdr (i + 1) ms]

theorem ssMac_length (key hdr body : List Nat) :
    (ssMac key hdr body).length = 16 := by
  simp [ssMac]

theorem ss_push_length (key hdr : List Nat) (t : Nat) (m : List Nat) :
    (ss_push key hdr t m).length = m.length + SS_ABYTES := by
  simp [ss_push, ssEncList_length, ssMac_length, SS_ABYTES]

theorem ssHeader_length (key : List Nat) :
    (ssHeader key).length = SS_HEADERBYTES := by
  simp [ssHeader]

theorem leNat_le32 (n : Nat) : leNat (le32 n) = n % 4294967296 := by
  simp [leNat, le32]
  omega

theorem encrypt_frame_decomp (st : CryptoContext) (data : List Nat) :
    (imc_crypto_encrypt st data).2.2 =
      (IMC_CRYPTO_MAGIC ++ le32 IMC_CRYPTO_VERSION ++
        le32 ((ss_push st.xcc20_key (ssHeader st.xcc20_key) TAG_FINAL data).length +
          SS_HEADERBYTES)) ++
      (ssHeader st.xcc20_key ++
        ss_push st.xcc20_key (ssHeader st.xcc20_key) TAG_FINAL data) := by
  simp [imc_crypto_encrypt, List.append_assoc]

theorem encrypt_frame_drop12 (st : CryptoContext) (data : List Nat) :
    (imc_crypto_encrypt st data).2.2.drop 12 =
      ssHeader st.xcc20_key ++
        ss_push st.xcc20_key (ssHeader st.xcc20_key) TAG_FINAL data := by
  rw [encrypt_frame_decomp]
  exact List.drop_left' (by simp [IMC_CRYPTO_MAGIC, le32])

theorem encrypt_frame_header_part (st : CryptoContext) (data : List Nat) :
    ((imc_crypto_encrypt st data).2.2.drop IMC_HEADER_OVERHEAD).take SS_HEADERBYTES =
      ssHeader st.xcc20_key := by
  show ((imc_crypto_encrypt st data).2.2.drop 12).take SS_HEADERBYTES = _
  rw [encrypt_frame_drop12]
  exact List.take_left' (ssHeader_length st.xcc20_key)

theorem encrypt_frame_cipher_part (st : CryptoContext) (data : List Nat) :
    (imc_crypto_encrypt st data).2.2.drop (IMC_HEADER_OVERHEAD + SS_HEADERBYTES) =
      ss_push st.xcc20_key (ssHeader st.xcc20_key) TAG_FINAL data := by
  show (imc_crypto_encrypt st data).2.2.drop 36 = _
  have h36 : (36 : Nat) = 12 + 24 := by norm_num
  rw [h36, ← List.drop_drop, encrypt_frame_drop12]
  exact List.drop_left' (ssHeader_length st.xcc20_key)

theorem encrypt_length_field (st : CryptoContext) (data : List Nat) :
    leNat (((imc_crypto_encrypt st data).2.2.drop 8).take 4) =
      (data.length + 41) % 4294967296 := by
  have hd : (imc_crypto_encrypt st data).2.2 =
      (IMC_CRYPTO_MAGIC ++ le32 IMC_CRYPTO_VERSION) ++
      (le32 ((ss_push st.xcc20_key (ssHeader st.xcc20_key) TAG_FINAL data).length +
          SS_HEADERBYTES) ++
        (ssHeader st.xcc20_key ++
          ss_push st.xcc20_key (ssHeader st.xcc20_key) TAG_FINAL data)) := by
    rw [encrypt_frame_decomp]
    simp [List.append_assoc]
  rw [hd, List.drop_left' (by simp [IMC_CRYPTO_MAGIC, le32] : _ = 8),
    List.take_left' (by simp [le32] : _ = 4), leNat_le32,
    ss_push_length]
  simp [SS_ABYTES, SS_HEADERBYTES]

theorem encrypt_frame_length (st : CryptoContext) (data : List Nat) :
    (imc_crypto_encrypt st data).2.2.length = data.length + 53 := by
  rw [encrypt_frame_decomp]
  simp [IMC_CRYPTO_MAGIC, le32, ss_push_length, ssHeader_length,
    SS_ABYTES, SS_HEADERBYTES]
  omega

/-! ### Claim C3: frame self-description -/

/-- C3 (counterexample): for a plaintext of `2^32 - 41` bytes the encrypt
call succeeds, but the little-endian uint32 length field at offset 8 is the
truncation `(data_len + 41) mod 2^32 = 0` and does not equal the
`2^32` bytes (cipher header + ciphertext + tag) that actually follow it,
because of the `(uint32_t)` cast at imc_crypto.c:179. -/
theorem encrypt_length_field_truncated :
    leNat (((imc_crypto_encrypt ctxW (List.replicate 4294967255 0)).2.2.drop 8).take 4) ≠
      SS_HEADERBYTES +
        (ss_push ctxW.xcc20_key (ssHeader ctxW.xcc20_key) TAG_FINAL
          (List.replicate 4294967255 0)).length := by
  have h1 := encrypt_length_field ctxW (List.replicate 4294967255 0)
  have h2 := ss_push_length ctxW.xcc20_key (ssHeader ctxW.xcc20_key) TAG_FINAL
    (List.replicate 4294967255 0)
  rw [h1, h2, List.length_replicate]
  intro hcontra
  simp only [SS_ABYTES, SS_HEADERBYTES] at hcontra
  omega

/-- C3 (amended): for every successful encrypt call whose cipher header +
ciphertext + tag byte count fits a uint32 (data length < 2^32 - 41), the
frame starts with the 4-byte magic signature, carries the version as a
little-endian uint32 at offset 4, and the little-endian uint32 length field
at offset 8 equals exactly the number of bytes that follow it (cipher
header + ciphertext + tag), with the cipher header beginning at offset 12;
in general the field holds that byte count reduced mod 2^32. -/
theorem encrypt_frame_layout (st : CryptoContext) (data : List Nat)
    (h : data.length + 41 < 4294967296) :
    (imc_crypto_encrypt st data).1 = 0 ∧
    (imc_crypto_encrypt st data).2.2.take 4 = IMC_CRYPTO_MAGIC ∧
    leNat (((imc_crypto_encrypt st data).2.2.drop 4).take 4) = IMC_CRYPTO_VERSION ∧
    leNat (((imc_crypto_encrypt st data).2.2.drop 8).take 4) =
      SS_HEADERBYTES +
        (ss_push st.xcc20_key (ssHeader st.xcc20_key) TAG_FINAL data).length ∧
    leNat (((imc_crypto_encrypt st data).2.2.drop 8).take 4) =
      (imc_crypto_encrypt st data).2.2.length - IMC_HEADER_OVERHEAD ∧
    ((imc_crypto_encrypt st data).2.2.drop IMC_HEADER_OVERHEAD).take SS_HEADERBYTES =
      ssHeader st.xcc20_key := by
  refine ⟨rfl, ?_, ?_, ?_, ?_, encrypt_frame_header_part st data⟩
  · rw [encrypt_frame_decomp]
    simp [List.append_assoc, IMC_CRYPTO_MAGIC, le32]
  · have hd : (imc_crypto_encrypt st data).2.2 =
        IMC_CRYPTO_MAGIC ++
        (le32 IMC_CRYPTO_VERSION ++
          (le32 ((ss_push st.xcc20_key (ssHeader st.xcc20_key) TAG_FINAL data).length +
            SS_HEADERBYTES) ++
          (ssHeader st.xcc20_key ++
            ss_push st.xcc20_key (ssHeader st.xcc20_key) TAG_FINAL data))) := by
      rw [encrypt_frame_decomp]
      simp [List.append_assoc]
    rw [hd, List.drop_left' (by simp [IMC_CRYPTO_MAGIC] : _ = 4),
      List.take_left' (by simp [le32] : _ = 4), leNat_le32]
    simp [IMC_CRYPTO_VERSION]
  · rw [encrypt_length_field, ss_push_length]
    simp only [SS_ABYTES, SS_HEADERBYTES]
    omega
  · rw [encrypt_length_field, encrypt_frame_length]
    simp only [IMC_HEADER_OVERHEAD]
    omega

/-- Witness for `encrypt_frame_layout` at a small concrete plaintext. -/
theorem encrypt_frame_layout_witness :
    (imc_crypto_encrypt ctxW [1, 2, 3]).1 = 0 ∧
    (imc_crypto_encrypt ctxW [1, 2, 3]).2.2.take 4 = IMC_CRYPTO_MAGIC ∧
    leNat (((imc_crypto_encrypt ctxW [1, 2, 3]).2.2.drop 4).take 4) = IMC_CRYPTO_VERSION ∧
    leNat (((imc_crypto_encrypt ctxW [1, 2, 3]).2.2.drop 8).take 4) =
      SS_HEADERBYTES +
        (ss_push ctxW.xcc20_key (ssHeader ctxW.xcc20_key) TAG_FINAL [1, 2, 3]).length ∧
    leNat (((imc_crypto_encrypt ctxW [1, 2, 3]).2.2.drop 8).take 4) =
      (imc_crypto_encrypt ctxW [1, 2, 3]).2.2.length - IMC_HEADER_OVERHEAD ∧
    ((imc_crypto_encrypt ctxW [1, 2, 3]).2.2.drop IMC_HEADER_OVERHEAD).take SS_HEADERBYTES =
      ssHeader ctxW.xcc20_key :=
  encrypt_frame_layout ctxW [1, 2, 3] (by norm_num)

/-! ### Round-trip lemmas for the stream-cipher model -/

theorem ssKeystream_lt (key hdr : List Nat) (i : Nat) :
    ssKeystream key hdr i < 256 :=
  Nat.mod_lt _ (by norm_num)

theorem ssDecByte_encByte (key hdr : List Nat) (i m : Nat) (h : m < 256) :
    ssDecByte key hdr i (ssEncByte key hdr i m) = m := by
  have hk := ssKeystream_lt key hdr i
  unfold ssDecByte ssEncByte
  omega

theorem ssDecList_encList (key hdr : List Nat) :
    ∀ (i : Nat) (ms : List Nat), (∀ b ∈ ms, b < 256) →
      ssDecList key hdr i (ssEncList key hdr i ms) = ms
  | _, [], _ => rfl
  | i, m :: ms, h => by
    have hm : m < 256 := h m (by simp)
    have hms : ∀ b ∈ ms, b < 256 := fun b hb => h b (by simp [hb])
    simp only [ssEncList, ssDecList, ssDecByte_encByte key hdr i m hm,
      ssDecList_encList key hdr (i + 1) ms hms]

theorem ss_pull_push (key hdr : List Nat) (tag : Nat) (msg : List Nat)
    (htag : tag < 256) (hmsg : ∀ b ∈ msg, b < 256) :
    ss_pull key hdr (ss_push key hdr tag msg) = some (tag, msg) := by
  have hblen : (ssEncByte key hdr 0 tag :: ssEncList key hdr 1 msg).length =
      msg.length + 1 := by
    simp [ssEncList_length]
  have hlen : (ss_push key hdr tag msg).length = msg.length + 17 := by
    rw [ss_push_length]
    simp [SS_ABYTES]
  show ss_pull key hdr
    ((ssEncByte key hdr 0 tag :: ssEncList key hdr 1 msg) ++
      ssMac key hdr (ssEncByte key hdr 0 tag :: ssEncList key hdr 1 msg)) = _
  unfold ss_pull
  rw [show ((ssEncByte key hdr 0 tag :: ssEncList key hdr 1 msg) ++
      ssMac key hdr (ssEncByte key hdr 0 tag :: ssEncList key hdr 1 msg)).length =
      msg.length + 17 from hlen]
  have h17 : ¬ (msg.length + 17 < SS_ABYTES) := by
    simp [SS_ABYTES]
  rw [if_neg h17]
  have hidx : msg.length + 17 - 16 =
      (ssEncByte key hdr 0 tag :: ssEncList key hdr 1 msg).length := by
    rw [hblen]
    omega
  rw [hidx, List.take_left, List.drop_left, if_pos rfl]
  simp only [ssDecByte_encByte key hdr 0 tag htag,
    ssDecList_encList key hdr 1 msg hmsg]

/-! ### Claim C1: encrypt/decrypt round trip -/

/-- C1: for every context and every byte plaintext `P` (bytes < 256, any
length including empty), encrypting with `imc_crypto_encrypt` succeeds, and
feeding the frame's cipher header (frame bytes 12..12+H-1) and the remaining
ciphertext+tag bytes to `imc_crypto_decrypt` with the same context succeeds
and recovers exactly `P`. -/
theorem encrypt_decrypt_roundtrip (st : CryptoContext) (P outInit : List Nat)
    (hP : ∀ b ∈ P, b < 256) :
    (imc_crypto_encrypt st P).1 = 0 ∧
    imc_crypto_decrypt st
        (((imc_crypto_encrypt st P).2.2.drop IMC_HEADER_OVERHEAD).take SS_HEADERBYTES)
        ((imc_crypto_encrypt st P).2.2.drop (IMC_HEADER_OVERHEAD + SS_HEADERBYTES))
        outInit =
      ⟨0, P.length, P ++ outInit.drop P.length⟩ ∧
    (imc_crypto_decrypt st
        (((imc_crypto_encrypt st P).2.2.drop IMC_HEADER_OVERHEAD).take SS_HEADERBYTES)
        ((imc_crypto_encrypt st P).2.2.drop (IMC_HEADER_OVERHEAD + SS_HEADERBYTES))
        outInit).out.take P.length = P := by
  have h2 : imc_crypto_decrypt st
      (((imc_crypto_encrypt st P).2.2.drop IMC_HEADER_OVERHEAD).take SS_HEADERBYTES)
      ((imc_crypto_encrypt st P).2.2.drop (IMC_HEADER_OVERHEAD + SS_HEADERBYTES))
      outInit = ⟨0, P.length, P ++ outInit.drop P.length⟩ := by
    rw [encrypt_frame_header_part, encrypt_frame_cipher_part]
    unfold imc_crypto_decrypt
    rw [ss_pull_push st.xcc20_key (ssHeader st.xcc20_key) TAG_FINAL P
      (by norm_num [TAG_FINAL]) hP]
    simp
  refine ⟨rfl, h2, ?_⟩
  rw [h2]
  exact List.take_left P _

set_option maxRecDepth 8000 in
/-- Witness for `encrypt_decrypt_roundtrip` at a concrete context,
plaintext and output buffer. -/
theorem encrypt_decrypt_roundtrip_witness :
    (imc_crypto_encrypt ctxW [104, 105]).1 = 0 ∧
    imc_crypto_decrypt ctxW
        (((imc_crypto_encrypt ctxW [104, 105]).2.2.drop IMC_HEADER_OVERHEAD).take SS_HEADERBYTES)
        ((imc_crypto_encrypt ctxW [104, 105]).2.2.drop (IMC_HEADER_OVERHEAD + SS_HEADERBYTES))
        [0, 0] =
      ⟨0, ([104, 105] : List Nat).length, [104, 105] ++ ([0, 0] : List Nat).drop 2⟩ ∧
    (imc_crypto_decrypt ctxW
        (((imc_crypto_encrypt ctxW [104, 105]).2.2.drop IMC_HEADER_OVERHEAD).take SS_HEADERBYTES)
        ((imc_crypto_encrypt ctxW [104, 105]).2.2.drop (IMC_HEADER_OVERHEAD + SS_HEADERBYTES))
        [0, 0]).out.take 2 = [104, 105] := by
  have h := encrypt_decrypt_roundtrip ctxW [104, 105] [0, 0] (by decide)
  simpa using h

/-! ### Claim C9: the PRNG buffer invariant and refill transparency -/

/-- Generator state after `n` full-buffer refills from state `s`. -/
def stateIter (s : Nat) : Nat → Nat
  | 0 => s
  | n + 1 => (prng_gen (stateIter s n) IMC_PRNG_BUFFER).2

/-- Byte `k` of the idealized infinite stream obtained by concatenating
successive `prng_gen` refill blocks starting from state `s`. -/
def genStream (s k : Nat) : Nat :=
  (prng_gen (stateIter s (k / IMC_PRNG_BUFFER)) IMC_PRNG_BUFFER).1.getD
    (k % IMC_PRNG_BUFFER) 0

/-- Byte `k` of the idealized continuation of a context: first the
still-unread buffered bytes (from cursor `pos` on), then all future refill
blocks. Each buffered byte occurs at exactly one stream position, so a read
that follows this stream never yields a byte twice. -/
def ctxStream (st : CryptoContext) (k : Nat) : Nat :=
  if st.prng_buffer.pos + k < IMC_PRNG_BUFFER then
    st.prng_buffer.buf.getD (st.prng_buffer.pos + k) 0
  else genStream st.shishua_state (st.prng_buffer.pos + k - IMC_PRNG_BUFFER)

theorem stateIter_shift (s : Nat) :
    ∀ n, stateIter (prng_gen s IMC_PRNG_BUFFER).2 n = stateIter s (n + 1)
  | 0 => rfl
  | n + 1 => by
    simp only [stateIter, stateIter_shift s n]

theorem genStream_lt (s k : Nat) (h : k < IMC_PRNG_BUFFER) :
    genStream s k = (prng_gen s IMC_PRNG_BUFFER).1.getD k 0 := by
  unfold genStream
  rw [Nat.div_eq_of_lt h, Nat.mod_eq_of_lt h]
  rfl

theorem genStream_ge (s k : Nat) (h : IMC_PRNG_BUFFER ≤ k) :
    genStream s k = genStream (prng_gen s IMC_PRNG_BUFFER).2 (k - IMC_PRNG_BUFFER) := by
  unfold genStream
  rw [stateIter_shift]
  have h1 : (k - IMC_PRNG_BUFFER) / IMC_PRNG_BUFFER + 1 = k / IMC_PRNG_BUFFER := by
    simp only [IMC_PRNG_BUFFER] at h ⊢
    omega
  have h2 : (k - IMC_PRNG_BUFFER) % IMC_PRNG_BUFFER = k % IMC_PRNG_BUFFER := by
    simp only [IMC_PRNG_BUFFER] at h ⊢
    omega
  rw [h1, h2]

theorem prngStep_stream (st : CryptoContext)
    (h : st.prng_buffer.pos < IMC_PRNG_BUFFER) :
    (prngStep st).1 = ctxStream st 0 ∧
    (prngStep st).2.prng_buffer.pos < IMC_PRNG_BUFFER ∧
    ∀ k, ctxStream (prngStep st).2 k = ctxStream st (k + 1) := by
  have hb : (prngStep st).1 = ctxStream st 0 := by
    unfold prngStep ctxStream
    by_cases hc : st.prng_buffer.pos + 1 = IMC_PRNG_BUFFER
    · rw [if_pos hc, if_pos (by omega)]
      simp
    · rw [if_neg hc, if_pos (by omega)]
      simp
  have hpos : (prngStep st).2.prng_buffer.pos < IMC_PRNG_BUFFER := by
    unfold prngStep
    by_cases hc : st.prng_buffer.pos + 1 = IMC_PRNG_BUFFER
    · rw [if_pos hc]
      simp [IMC_PRNG_BUFFER]
    · rw [if_neg hc]
      simp only
      omega
  refine ⟨hb, hpos, ?_⟩
  intro k
  unfold prngStep ctxStream
  by_cases hc : st.prng_buffer.pos + 1 = IMC_PRNG_BUFFER
  · rw [if_pos hc]
    simp only
    have hge : ¬ (st.prng_buffer.pos + (k + 1) < IMC_PRNG_BUFFER) := by omega
    rw [if_neg hge]
    have he : st.prng_buffer.pos + (k + 1) - IMC_PRNG_BUFFER = k := by omega
    rw [he]
    by_cases hk : k < IMC_PRNG_BUFFER
    · rw [if_pos (by omega : 0 + k < IMC_PRNG_BUFFER),
        genStream_lt st.shishua_state k hk]
      simp
    · rw [if_neg (by omega : ¬ (0 + k < IMC_PRNG_BUFFER)),
        genStream_ge st.shishua_state k (by omega)]
      simp
  · rw [if_neg hc]
    simp only
    have e1 : st.prng_buffer.pos + 1 + k = st.prng_buffer.pos + (k + 1) := by omega
    rw [e1]

/-- C9: starting from a context whose cursor is inside the buffer (as every
context produced by `imc_crypto_context_create` is, and as every read
preserves), a PRNG read of any length keeps `0 ≤ pos ≤ IMC_PRNG_BUFFER`
(indeed `pos < IMC_PRNG_BUFFER`, the refill with cursor reset happening as
soon as `pos` reaches the capacity), the bytes produced are exactly the next
`n` bytes of the context's idealized continuation stream, and the final
context continues that same stream shifted by `n` — so no buffered byte is
ever yielded twice. -/
theorem prng_preserves_buffer_invariant (st : CryptoContext) (n : Nat)
    (h : st.prng_buffer.pos < IMC_PRNG_BUFFER) :
    (imc_crypto_prng st n).2.prng_buffer.pos < IMC_PRNG_BUFFER ∧
    (imc_crypto_prng st n).2.prng_buffer.pos ≤ IMC_PRNG_BUFFER ∧
    (imc_crypto_prng st n).1 = (List.range n).map (ctxStream st) ∧
    ∀ k, ctxStream (imc_crypto_prng st n).2 k = ctxStream st (n + k) := by
  induction n generalizing st with
  | zero =>
    refine ⟨h, le_of_lt h, by simp [imc_crypto_prng], ?_⟩
    intro k
    simp [imc_crypto_prng]
  | succ n ih =>
    obtain ⟨hb, hpos, hshift⟩ := prngStep_stream st h
    obtain ⟨h1, h2, h3, h4⟩ := ih (prngStep st).2 hpos
    refine ⟨h1, h2, ?_, ?_⟩
    · show (prngStep st).1 :: (imc_crypto_prng (prngStep st).2 n).1 = _
      rw [List.range_succ_eq_map, List.map_cons, hb, h3, List.map_map]
      congr 1
      apply List.map_congr_left
      intro a _
      exact hshift a
    · intro k
      show ctxStream (imc_crypto_prng (prngStep st).2 n).2 k = _
      rw [h4 k, hshift (n + k)]
      congr 1
      omega

set_option maxRecDepth 20000 in
set_option maxHeartbeats 1000000 in
/-- Witness for `prng_preserves_buffer_invariant` on a concrete context and
a read long enough to cross a buffer refill. -/
theorem prng_preserves_buffer_invariant_witness :
    (imc_crypto_prng ctxW 70).2.prng_buffer.pos < IMC_PRNG_BUFFER ∧
    (imc_crypto_prng ctxW 70).1 = (List.range 70).map (ctxStream ctxW) ∧
    ctxStream (imc_crypto_prng ctxW 70).2 5 = ctxStream ctxW 75 := by
  have h := prng_preserves_buffer_invariant ctxW 70 (by decide)
  exact ⟨h.1, h.2.2.1, by simpa using h.2.2.2 5⟩

end ImcCrypto
